import Mathlib

/-!
Verification development for the kita log-visualization core
(src/app/page.tsx). The definitions below are a shallow embedding of the
timestamp parser, entry parser, sequencer (global event numbering),
range-based grouper, and the connector (adjacency) logic. JS `Date`
values are modelled as milliseconds since the civil epoch (time zone
offset not modelled, i.e. treated as UTC); JS strings are modelled as
`List Char`; `null`/`undefined` fields as `Option`.
-/

/-- Kind of a journal event: request or response. -/
inductive Kind where
  | request : Kind
  | response : Kind
deriving DecidableEq

/-- Numeric value of a decimal digit character. -/
def digitVal (c : Char) : Nat := c.toNat - 48

/-- Match the regex fragment `\d{1,2}` followed by the literal `lit`,
at the start of the input; returns the parsed value and the rest.
Greedy with backtracking, as in JS: two digits are preferred; since
`lit` is never a digit the one- and two-digit alternatives are
mutually exclusive. -/
def takeNum12 (lit : Char) : List Char → Option (Nat × List Char)
  | c1 :: c2 :: c3 :: rest =>
    if c1.isDigit && c2.isDigit then
      if c3 = lit then some (10 * digitVal c1 + digitVal c2, rest) else none
    else if c1.isDigit && c2 = lit then some (digitVal c1, c3 :: rest)
    else none
  | [c1, c2] =>
    if c1.isDigit && c2.isDigit then none
    else if c1.isDigit && c2 = lit then some (digitVal c1, [])
    else none
  | _ => none

/-- Match exactly two digits (regex `\d{2}`). -/
def takeNum2 : List Char → Option (Nat × List Char)
  | c1 :: c2 :: rest =>
    if c1.isDigit && c2.isDigit then some (10 * digitVal c1 + digitVal c2, rest) else none
  | _ => none

/-- Match exactly three digits (regex `\d{3}`). -/
def takeNum3 : List Char → Option (Nat × List Char)
  | c1 :: c2 :: c3 :: rest =>
    if c1.isDigit && c2.isDigit && c3.isDigit then
      some (100 * digitVal c1 + 10 * digitVal c2 + digitVal c3, rest)
    else none
  | _ => none

/-- Match exactly four digits (regex `\d{4}`). -/
def takeNum4 : List Char → Option (Nat × List Char)
  | c1 :: c2 :: c3 :: c4 :: rest =>
    if c1.isDigit && c2.isDigit && c3.isDigit && c4.isDigit then
      some (1000 * digitVal c1 + 100 * digitVal c2 + 10 * digitVal c3 + digitVal c4, rest)
    else none
  | _ => none

/-- Match one literal character. -/
def expectChar (lit : Char) : List Char → Option (List Char)
  | c :: rest => if c = lit then some rest else none
  | [] => none

/-- Components captured by the timestamp regex
`\d{1,2}\/\d{1,2}\/\d{4} \d{1,2}:\d{2}:\d{2}\.\d{3} [AP]M`
of `parseTimestamp` in src/app/page.tsx. The meridiem field is the
captured `[AP]` character (uppercase only: the regex has no `i` flag). -/
structure TsMatch where
  month : Nat
  day : Nat
  year : Nat
  hour : Nat
  minute : Nat
  second : Nat
  ms : Nat
  meridiem : Char
deriving DecidableEq

/-- Try to match the timestamp regex at the start of the input. -/
def matchTimestampAt (cs : List Char) : Option TsMatch := do
  let (month, cs) ← takeNum12 '/' cs
  let (day, cs) ← takeNum12 '/' cs
  let (year, cs) ← takeNum4 cs
  let cs ← expectChar ' ' cs
  let (hour, cs) ← takeNum12 ':' cs
  let (minute, cs) ← takeNum2 cs
  let cs ← expectChar ':' cs
  let (second, cs) ← takeNum2 cs
  let cs ← expectChar '.' cs
  let (ms, cs) ← takeNum3 cs
  let cs ← expectChar ' ' cs
  match cs with
  | c1 :: c2 :: _ =>
    if (c1 = 'A' || c1 = 'P') && c2 = 'M' then
      some ⟨month, day, year, hour, minute, second, ms, c1⟩
    else none
  | _ => none

/-- Leftmost match of the timestamp regex: `line.match(...)` scans
positions left to right. -/
def scanTimestamp : List Char → Option TsMatch
  | [] => none
  | c :: rest =>
    match matchTimestampAt (c :: rest) with
    | some m => some m
    | none => scanTimestamp rest

/-- Days from the civil epoch 1970-01-01 of the first day `d` of month
`m` (1-based, in 1..12) of year `y` (proleptic Gregorian, as used by
the JS `Date` constructor). -/
def daysFromCivil (y m d : Int) : Int :=
  let yAdj := if m ≤ 2 then y - 1 else y
  let era := (if 0 ≤ yAdj then yAdj else yAdj - 399) / 400
  let yoe := yAdj - era * 400
  let mp := if 2 < m then m - 3 else m + 9
  let doy := (153 * mp + 2) / 5 + d - 1
  let doe := yoe * 365 + yoe / 4 - yoe / 100 + doy
  era * 146097 + doe - 719468

/-- Model of `new Date(year, monthIndex, day, hours, minutes, seconds,
ms).getTime()`: out-of-range month indices roll over with floor
semantics; a year in 0..99 is interpreted as 1900+year; day/time
components overflow by plain arithmetic. Time zone offset is not
modelled (UTC). -/
def jsDate (year monthIndex day hour minute second ms : Int) : Int :=
  let yy := if 0 ≤ year ∧ year ≤ 99 then 1900 + year else year
  let ym := yy * 12 + monthIndex
  let y := ym.fdiv 12
  let mon := ym.emod 12
  let days := daysFromCivil y (mon + 1) 1 + (day - 1)
  (((days * 24 + hour) * 60 + minute) * 60 + second) * 1000 + ms

/-- Embedding of `parseTimestamp` (src/app/page.tsx lines 65-105):
scan the line for the timestamp pattern; on a match, convert the
12-hour clock to 24-hour (`PM` below 12 adds 12, `12 AM` becomes 0)
and build the `Date` from the numeric components (month is passed
0-indexed). No match gives `none`; the `try/catch` never fires since
the `Date` constructor does not throw. -/
def parseTimestamp (line : List Char) : Option Int :=
  match scanTimestamp line with
  | none => none
  | some m =>
    let hours : Nat :=
      if m.meridiem = 'P' ∧ m.hour < 12 then m.hour + 12
      else if m.meridiem = 'A' ∧ m.hour = 12 then 0
      else m.hour
    some (jsDate (Int.ofNat m.year) (Int.ofNat m.month - 1) (Int.ofNat m.day)
      (Int.ofNat hours) (Int.ofNat m.minute) (Int.ofNat m.second) (Int.ofNat m.ms))

/-- ASCII whitespace stripped by JS `String.prototype.trim` (Unicode
space characters are not modelled; the inputs of interest are ASCII). -/
def jsWhitespace (c : Char) : Bool :=
  c = ' ' || c = '\t' || c = '\n' || c = '\r' || c = Char.ofNat 11 || c = Char.ofNat 12

/-- Model of `String.prototype.trim`. -/
def jsTrim (cs : List Char) : List Char :=
  ((cs.dropWhile jsWhitespace).reverse.dropWhile jsWhitespace).reverse

/-- Split on the newline character, as `text.split('\n')`. -/
def splitLines : List Char → List (List Char)
  | [] => [[]]
  | c :: rest =>
    if c = '\n' then [] :: splitLines rest
    else
      match splitLines rest with
      | [] => [[c]]
      | l :: ls => (c :: l) :: ls

/-- Lowercasing as used for the marker test (`line.toLowerCase()`);
ASCII letters only, which covers the marker phrases. -/
def lowerStr (cs : List Char) : List Char := cs.map Char.toLower

/-- Does `pat` occur at the start of the second list. -/
def headMatches : List Char → List Char → Bool
  | [], _ => true
  | _ :: _, [] => false
  | p :: ps, c :: cs => p = c && headMatches ps cs

/-- Substring containment, as JS `String.prototype.includes`. -/
def containsSub (pat : List Char) : List Char → Bool
  | [] => pat.isEmpty
  | c :: rest => headMatches pat (c :: rest) || containsSub pat rest

/-- The request marker phrase. -/
def reqMarker : List Char := "request journal entry created".toList

/-- The response marker phrase. -/
def respMarker : List Char := "response journal entry created".toList

/-- Accumulator of the line scan of `parseLogEntry`: the four mutable
locals `hasRequest`, `hasResponse`, `requestTimestamp`,
`responseTimestamp`. -/
structure ScanSt where
  hasRequest : Bool
  hasResponse : Bool
  requestTimestamp : Option Int
  responseTimestamp : Option Int
deriving DecidableEq

/-- One iteration of the `lines.forEach` loop of `parseLogEntry`:
each marker test is independent; a parsed timestamp overwrites the
accumulator (so with several marker lines the last parseable one
wins), a failed parse leaves it unchanged. -/
def scanLine (st : ScanSt) (line : List Char) : ScanSt :=
  let st1 :=
    if containsSub reqMarker (lowerStr line) then
      { st with
        hasRequest := true
        requestTimestamp :=
          match parseTimestamp line with
          | some t => some t
          | none => st.requestTimestamp }
    else st
  if containsSub respMarker (lowerStr line) then
    { st1 with
      hasResponse := true
      responseTimestamp :=
        match parseTimestamp line with
        | some t => some t
        | none => st1.responseTimestamp }
  else st1

/-- Result of `parseLogEntry`: a `LogEntry` without `id` and creation
`timestamp`. -/
structure ParsedLogEntry where
  rawText : List Char
  firstColumn : List Char
  hasRequest : Bool
  hasResponse : Bool
  requestTimestamp : Option Int
  responseTimestamp : Option Int
deriving DecidableEq

/-- Embedding of `parseLogEntry` (src/app/page.tsx lines 107-143):
split into lines, keep the non-blank ones, use the first as the label,
and scan every line for the two marker phrases. -/
def parseLogEntry (text : List Char) : ParsedLogEntry :=
  let ls := (splitLines text).filter (fun l => !(jsTrim l).isEmpty)
  let firstLine := ls.headD []
  let st := ls.foldl scanLine ⟨false, false, none, none⟩
  ⟨text, firstLine, st.hasRequest, st.hasResponse, st.requestTimestamp, st.responseTimestamp⟩

/-- The `LogEntry` record of src/app/page.tsx. `id` is modelled as a
Nat (the source uses `Date.now().toString()`), `timestamp` is the
creation time. -/
structure LogEntry where
  id : Nat
  rawText : List Char
  firstColumn : List Char
  hasRequest : Bool
  hasResponse : Bool
  timestamp : Int
  requestTimestamp : Option Int
  responseTimestamp : Option Int
  requestNumber : Option Nat
  responseNumber : Option Nat
deriving DecidableEq

/-- Building the new `LogEntry` in `handleSendMessage`: parsed fields
plus a fresh id and creation time; the two derived numbers start
absent (`undefined`). -/
def mkLogEntry (p : ParsedLogEntry) (id : Nat) (now : Int) : LogEntry :=
  ⟨id, p.rawText, p.firstColumn, p.hasRequest, p.hasResponse, now,
    p.requestTimestamp, p.responseTimestamp, none, none⟩

/-- One derived event of the sequencer. `eid` models the string key
`` `${entry.id}-request` `` / `` `${entry.id}-response` `` (the two
suffixes keep distinct entry ids and kinds distinguishable, exactly as
the string concatenation does). The source also stores the entry
itself in the event; that field is used only for logging and is
omitted. -/
structure Event where
  eid : Nat × Kind
  logEntryId : Nat
  type : Kind
  timestamp : Int
deriving DecidableEq

/-- Request event of an entry, if `hasRequest && requestTimestamp`. -/
def reqEventOf (e : LogEntry) : List Event :=
  if e.hasRequest then
    match e.requestTimestamp with
    | some t => [⟨(e.id, Kind.request), e.id, Kind.request, t⟩]
    | none => []
  else []

/-- Response event of an entry, if `hasResponse && responseTimestamp`. -/
def respEventOf (e : LogEntry) : List Event :=
  if e.hasResponse then
    match e.responseTimestamp with
    | some t => [⟨(e.id, Kind.response), e.id, Kind.response, t⟩]
    | none => []
  else []

/-- Events contributed by one entry, request first, as in the
`logEntries.forEach` collection loop of `getNumberedEntries`. -/
def eventsOf (e : LogEntry) : List Event := reqEventOf e ++ respEventOf e

/-- The `allEvents` array of `getNumberedEntries`. -/
def allEvents (entries : List LogEntry) : List Event := entries.flatMap eventsOf

/-- Insert into a sorted list, before the first element the inserted
one compares `le` to (so, after any earlier tie: stable). -/
def insertSorted {α : Type} (le : α → α → Bool) (x : α) : List α → List α
  | [] => [x]
  | y :: ys => if le x y then x :: y :: ys else y :: insertSorted le x ys

/-- Stable sort by the boolean order `le`. JS `Array.prototype.sort`
is a stable sort, and for a total comparator the stable sorted
permutation is unique, so insertion sort models it faithfully. -/
def stableSort {α : Type} (le : α → α → Bool) : List α → List α
  | [] => []
  | x :: xs => insertSorted le x (stableSort le xs)

/-- Sorting all events ascending by timestamp
(`sort((a, b) => a.timestamp.getTime() - b.timestamp.getTime())`,
a stable sort). -/
def sortEvents (evs : List Event) : List Event :=
  stableSort (fun a b => decide (a.timestamp ≤ b.timestamp)) evs

/-- Pairing of list elements with their indices, as the
`(event, index)` callback arguments of `forEach`. -/
def enumFrom {α : Type} : Nat → List α → List (Nat × α)
  | _, [] => []
  | n, x :: xs => (n, x) :: enumFrom (n + 1) xs

/-- Lookup in the `eventNumberMap`: the map is built by
`sortedEvents.forEach((event, index) => map.set(event.id, index + 1))`,
so `get` returns `index + 1` for the last position whose event id
equals the key (later `set`s overwrite), and `undefined` (`none`) when
no position matches. -/
def eventNumberGet (sorted : List Event) (k : Nat × Kind) : Option Nat :=
  ((enumFrom 0 sorted).filterMap
    (fun p => if p.2.eid = k then some (p.1 + 1) else none)).getLast?

/-- Model of `x || null` applied to a looked-up number: `undefined`
and the falsy number 0 become `null`. -/
def orNull (o : Option Nat) : Option Nat :=
  match o with
  | some n => if n = 0 then none else some n
  | none => none

/-- The per-entry update of `getNumberedEntries`: copy the entry and
overwrite `requestNumber`/`responseNumber` from the event map when the
corresponding event exists. -/
def numberEntry (sorted : List Event) (e : LogEntry) : LogEntry :=
  let e1 :=
    if e.hasRequest ∧ e.requestTimestamp.isSome then
      { e with requestNumber := orNull (eventNumberGet sorted (e.id, Kind.request)) }
    else e
  if e.hasResponse ∧ e.responseTimestamp.isSome then
    { e1 with responseNumber := orNull (eventNumberGet sorted (e.id, Kind.response)) }
  else e1

/-- Embedding of `getNumberedEntries` (src/app/page.tsx lines 147-222):
collect all events, sort them by timestamp, number them 1.. in sorted
order, and write the numbers back to the entries. -/
def getNumberedEntries (entries : List LogEntry) : List LogEntry :=
  if entries.isEmpty then []
  else entries.map (numberEntry (sortEvents (allEvents entries)))

/-- Embedding of `getEntryNumbers`: the truthy numbers of an entry
(`if (entry.requestNumber) numbers.push(...)`; the falsy 0 is
skipped). -/
def getEntryNumbers (e : LogEntry) : List Nat :=
  (match e.requestNumber with
   | some n => if n = 0 then [] else [n]
   | none => []) ++
  (match e.responseNumber with
   | some n => if n = 0 then [] else [n]
   | none => [])

/-- Embedding of `getEntryRange`: `none` models the empty range
`{min: Infinity, max: -Infinity}` of an entry with no numbers. -/
def getEntryRange (e : LogEntry) : Option (Nat × Nat) :=
  match getEntryNumbers e with
  | [] => none
  | n :: rest => some (rest.foldl Nat.min n, rest.foldl Nat.max n)

/-- The `TableGroup` record; `id` models `` `group-${groups.length + 1}` ``. -/
structure TableGroup where
  id : Nat
  entries : List LogEntry
  minNumber : Nat
  maxNumber : Nat
deriving DecidableEq

/-- The overlap test of `getTableGroups`:
`!(entryRange.max < group.minNumber || entryRange.min > group.maxNumber)`. -/
def rangeOverlaps (r : Nat × Nat) (g : TableGroup) : Prop :=
  ¬(r.2 < g.minNumber ∨ r.1 > g.maxNumber)

instance (r : Nat × Nat) (g : TableGroup) : Decidable (rangeOverlaps r g) := by
  unfold rangeOverlaps; infer_instance

/-- Widening a group that an entry joins: push the entry and widen the
bounds to the union. -/
def widenGroup (g : TableGroup) (e : LogEntry) (r : Nat × Nat) : TableGroup :=
  ⟨g.id, g.entries ++ [e], Nat.min g.minNumber r.1, Nat.max g.maxNumber r.2⟩

/-- The `for (const group of groups)` loop of `getTableGroups`: scan
groups in creation order, mutate the first group whose range overlaps,
and break; `none` when no group matched (`foundGroup` stays false). -/
def tryJoin (e : LogEntry) (r : Nat × Nat) : List TableGroup → Option (List TableGroup)
  | [] => none
  | g :: gs =>
    if rangeOverlaps r g then some (widenGroup g e r :: gs)
    else
      match tryJoin e r gs with
      | some gs2 => some (g :: gs2)
      | none => none

/-- The body of the `sortedEntries.forEach` loop of `getTableGroups`:
an entry with no numbers always gets a fresh group with bounds 0/0;
otherwise the entry joins the first overlapping group, or a fresh
group with its own range is appended. -/
def placeEntry (gs : List TableGroup) (e : LogEntry) : List TableGroup :=
  match getEntryRange e with
  | none => gs ++ [⟨gs.length + 1, [e], 0, 0⟩]
  | some r =>
    match tryJoin e r gs with
    | some gs2 => gs2
    | none => gs ++ [⟨gs.length + 1, [e], r.1, r.2⟩]

/-- Sort key of the entry sort: the range minimum, where `none` models
`Infinity` (entries with no numbers sort last). -/
def minKey (e : LogEntry) : Option Nat := (getEntryRange e).map Prod.fst

/-- Comparator order induced by `rangeA.min - rangeB.min` (with
`Infinity` for missing ranges; the NaN comparator result on two
missing ranges keeps the original order, like a stable sort on an
always-true `le`). -/
def keyLe (a b : Option Nat) : Bool :=
  match a, b with
  | _, none => true
  | none, some _ => false
  | some x, some y => decide (x ≤ y)

/-- The entry sort used both on the whole collection and inside each
group: ascending by range minimum, stable. -/
def sortEntriesByMin (l : List LogEntry) : List LogEntry :=
  stableSort (fun a b => keyLe (minKey a) (minKey b)) l

/-- Embedding of `getTableGroups` (src/app/page.tsx lines 245-310):
sort entries by range minimum, place each in first-fit fashion, then
sort the members of each group and the groups themselves. -/
def getTableGroups (entries : List LogEntry) : List TableGroup :=
  if entries.isEmpty then []
  else
    let sortedEntries := sortEntriesByMin entries
    let groups := sortedEntries.foldl placeEntry []
    let groups2 := groups.map (fun g => { g with entries := sortEntriesByMin g.entries })
    stableSort (fun a b => decide (a.minNumber ≤ b.minNumber)) groups2

/-- A rendered number label, as collected by `getAllNumberPositions`:
its integer value, its kind (from the `data-number-type` attribute),
and its center coordinates. The DOM extraction itself is geometry and
is modelled by taking the label list as input. -/
structure NumberPosition where
  number : Nat
  type : Kind
  x : Int
  y : Int
deriving DecidableEq

/-- Embedding of the final sort of `getAllNumberPositions`: labels
ascending by numeric value. -/
def getAllNumberPositions (labels : List NumberPosition) : List NumberPosition :=
  stableSort (fun a b => decide (a.number ≤ b.number)) labels

/-- An SVG line appended by `drawConnectingLines`, with the stroke
attributes the source sets. -/
structure SvgLine where
  x1 : Int
  y1 : Int
  x2 : Int
  y2 : Int
  stroke : List Char
  strokeWidth : Nat
deriving DecidableEq

/-- Line construction of `drawConnectingLines`: the stroke is chosen
by the kinds of the two endpoints (request-request, response-response,
or mixed). -/
def mkLine (a b : NumberPosition) : SvgLine :=
  let isRequestLine := a.type = Kind.request ∧ b.type = Kind.request
  let isResponseLine := a.type = Kind.response ∧ b.type = Kind.response
  if isRequestLine then ⟨a.x, a.y, b.x, b.y, "var(--primary-color)".toList, 3⟩
  else if isResponseLine then ⟨a.x, a.y, b.x, b.y, "#3b82f6".toList, 3⟩
  else ⟨a.x, a.y, b.x, b.y, "#8b5cf6".toList, 2⟩

/-- The `for (let i = 0; i < positions.length - 1; i++)` loop of
`drawConnectingLines`: a line between each adjacent pair whose numbers
are consecutive. -/
def drawLinesLoop : List NumberPosition → List SvgLine
  | a :: b :: rest =>
    (if b.number = a.number + 1 then [mkLine a b] else []) ++ drawLinesLoop (b :: rest)
  | _ => []

/-- Embedding of `drawConnectingLines` (src/app/page.tsx lines
343-387), applied to the rendered label list. -/
def drawConnectingLines (labels : List NumberPosition) : List SvgLine :=
  drawLinesLoop (getAllNumberPositions labels)

/-- Specification-side connector classification, written from the
claim: request-request, response-response, or mixed, by the kinds of
the two endpoint labels. -/
def classifyLineSpec (a b : NumberPosition) : SvgLine :=
  match a.type, b.type with
  | Kind.request, Kind.request => ⟨a.x, a.y, b.x, b.y, "var(--primary-color)".toList, 3⟩
  | Kind.response, Kind.response => ⟨a.x, a.y, b.x, b.y, "#3b82f6".toList, 3⟩
  | _, _ => ⟨a.x, a.y, b.x, b.y, "#8b5cf6".toList, 2⟩

/-- Specification-side connector list, written from the claim: among
adjacent pairs of the sorted label sequence, exactly those whose
values differ by one, classified by endpoint kinds. -/
def specConnectors (labels : List NumberPosition) : List SvgLine :=
  let sorted := getAllNumberPositions labels
  ((sorted.zip sorted.tail).filter
    (fun p => decide (p.2.number = p.1.number + 1))).map
    (fun p => classifyLineSpec p.1 p.2)

/-- Specification-side scan of the group list, written from the claim:
the index of the first group, in creation order, whose bounds overlap
the range. -/
def firstFitIdx (r : Nat × Nat) : List TableGroup → Option Nat
  | [] => none
  | g :: gs =>
    if rangeOverlaps r g then some 0
    else (firstFitIdx r gs).map (fun i => i + 1)

/-- Specification-side step of the grouper, written from the claim:
the entry joins the first group whose current bounds overlap its
range, widening that group to the union, and otherwise a new group is
created with exactly this entry and bounds equal to its range
(an entry with no range always gets its own fresh 0/0 group). -/
def specStep (gs : List TableGroup) (e : LogEntry) : List TableGroup :=
  match getEntryRange e with
  | none => gs ++ [⟨gs.length + 1, [e], 0, 0⟩]
  | some r =>
    match firstFitIdx r gs with
    | some i => gs.set i (widenGroup (gs.getD i ⟨0, [], 0, 0⟩) e r)
    | none => gs ++ [⟨gs.length + 1, [e], r.1, r.2⟩]

/-- Specification-side grouper, written from the claim: process the
entries in ascending order of range minimum with the first-fit step,
then present the result as the source does. -/
def specGrouper (entries : List LogEntry) : List TableGroup :=
  if entries.isEmpty then []
  else
    let groups := (sortEntriesByMin entries).foldl specStep []
    stableSort (fun a b => decide (a.minNumber ≤ b.minNumber))
      (groups.map (fun g => { g with entries := sortEntriesByMin g.entries }))

/-- Overlap of the number ranges of two entries, the relation behind
chain-connectivity inside a group; entries without a range overlap
nothing. -/
def entryOverlaps (a b : LogEntry) : Prop :=
  match getEntryRange a, getEntryRange b with
  | some ra, some rb => ¬(ra.2 < rb.1 ∨ rb.2 < ra.1)
  | _, _ => False

/-- The ranges of `x` and `y` are connected inside the member list `l`
through a chain of pairwise-overlapping member ranges. -/
def ConnectedIn (l : List LogEntry) (x y : LogEntry) : Prop :=
  ∃ c : List LogEntry, c.head? = some x ∧ c.getLast? = some y ∧
    (∀ z ∈ c, z ∈ l) ∧ c.Chain' entryOverlaps

/-- The `ChatMessage` record (id modelled as Nat). -/
structure ChatMessage where
  id : Nat
  text : List Char
  isUser : Bool
  timestamp : Int
deriving DecidableEq

/-- The component state touched by `handleSendMessage`: the entry
collection, the chat transcript, and the input box. -/
structure AppState where
  logEntries : List LogEntry
  chatMessages : List ChatMessage
  inputText : List Char
deriving DecidableEq

/-- Embedding of `handleSendMessage` (src/app/page.tsx lines 408-430):
a blank input returns before anything is parsed or appended;
otherwise the input is parsed, both lists are extended, and the input
box is cleared. `now`/`nid` stand for the `Date.now()` calls. -/
def handleSendMessage (st : AppState) (now : Int) (nid : Nat) : AppState :=
  if (jsTrim st.inputText).isEmpty then st
  else
    { logEntries := st.logEntries ++ [mkLogEntry (parseLogEntry st.inputText) nid now],
      chatMessages := st.chatMessages ++ [⟨nid, st.inputText, true, now⟩],
      inputText := [] }

/-- The `allNumbers` statistic: every non-null number of every entry,
in entry order, request before response. -/
def allNumbers (entries : List LogEntry) : List Nat :=
  entries.flatMap (fun e => ([e.requestNumber, e.responseNumber].filterMap id))

/-- The timestamp of the last non-blank request-marker line whose
timestamp parses (the value `parseLogEntry` is claimed, after
amendment, to record). -/
def lastReqTimestamp (text : List Char) : Option Int :=
  (((splitLines text).filter (fun l => !(jsTrim l).isEmpty)).filterMap
    (fun l => if containsSub reqMarker (lowerStr l) then parseTimestamp l else none)).getLast?

/-- The timestamp of the last non-blank response-marker line whose
timestamp parses. -/
def lastRespTimestamp (text : List Char) : Option Int :=
  (((splitLines text).filter (fun l => !(jsTrim l).isEmpty)).filterMap
    (fun l => if containsSub respMarker (lowerStr l) then parseTimestamp l else none)).getLast?

/-- Scenario A, first submission. -/
def textA : List Char :=
  "A | Req\nRequest journal entry created: 1/1/2025 1:00:00.000 AM".toList

/-- Scenario A, second submission. -/
def textB : List Char :=
  "B | Resp\nResponse journal entry created: 1/1/2025 1:00:01.000 AM".toList

/-- Entry built from the first submission (id 1). -/
def entryA : LogEntry := mkLogEntry (parseLogEntry textA) 1 0

/-- Entry built from the second submission (id 2). -/
def entryB : LogEntry := mkLogEntry (parseLogEntry textB) 2 0

/-- The scenario A entry collection. -/
def scenarioEntries : List LogEntry := [entryA, entryB]

/-- A submission with neither marker phrase. -/
def textC : List Char := "hello world".toList

/-- Entry with neither marker (id 3). -/
def entryC : LogEntry := mkLogEntry (parseLogEntry textC) 3 0

/-- A collection mixing a numbered entry and a no-marker entry. -/
def mixedEntries : List LogEntry := [entryA, entryC]

/-- A submission with two request-marker lines carrying different
parseable timestamps. -/
def textTwoReq : List Char :=
  ("X\nRequest journal entry created: 1/1/2025 1:00:00.000 AM" ++
   "\nRequest journal entry created: 1/1/2025 2:00:00.000 AM").toList

/-- A line whose meridiem marker is lowercase. -/
def lineLowerAm : List Char := "1/1/2025 1:00:00.000 am".toList

/-- The same line with an uppercase meridiem marker. -/
def lineUpperAm : List Char := "1/1/2025 1:00:00.000 AM".toList

/-- Rank of an event: the number the event map assigns to its id
(0 as a dummy when absent, which never happens for a collected event). -/
def rankOf (sorted : List Event) (ev : Event) : Nat :=
  (eventNumberGet sorted ev.eid).getD 0

/-- First option if present, otherwise the default. -/
def lastOr (o d : Option Int) : Option Int :=
  match o with
  | some t => some t
  | none => d

/-- Structural invariant of every group the grouper builds: either the
fresh 0/0 singleton of an entry with no numbers, or a group of
entries that all have ranges, with positive lower bound, a member
range reaching the upper bound, and chain-connected members. -/
def GroupInv (g : TableGroup) : Prop :=
  (g.minNumber = 0 ∧ g.maxNumber = 0 ∧ ∃ e, g.entries = [e] ∧ getEntryRange e = none) ∨
  (1 ≤ g.minNumber ∧
    (∀ e ∈ g.entries, ∃ r, getEntryRange e = some r) ∧
    (∃ w rw, w ∈ g.entries ∧ getEntryRange w = some rw ∧ rw.2 = g.maxNumber) ∧
    (∀ x ∈ g.entries, ∀ y ∈ g.entries, ConnectedIn g.entries x y))

/-- Placeholder group used with `List.headD` when naming a concrete
group of a computed list. -/
def defaultGroup : TableGroup := ⟨0, [], 0, 0⟩

/-- Scenario A after sequencing. -/
def scenarioNumbered : List LogEntry := getNumberedEntries scenarioEntries

/-- Scenario A after grouping. -/
def scenarioGroups : List TableGroup := getTableGroups scenarioNumbered

/-- The mixed collection after sequencing. -/
def mixedNumbered : List LogEntry := getNumberedEntries mixedEntries

/-- The mixed collection after grouping. -/
def mixedGroups : List TableGroup := getTableGroups mixedNumbered

/-- A state whose input box holds only whitespace. -/
def blankState : AppState := ⟨[], [], "   ".toList⟩

/-! ## Sorting lemmas -/

theorem insertSorted_perm {α : Type} (le : α → α → Bool) (x : α) (l : List α) :
    (insertSorted le x l).Perm (x :: l) := by
  induction l with
  | nil => exact List.Perm.refl _
  | cons y ys ih =>
    unfold insertSorted
    by_cases h : le x y
    · rw [if_pos h]
    · rw [if_neg h]
      exact (ih.cons y).trans (List.Perm.swap x y ys)

theorem stableSort_perm {α : Type} (le : α → α → Bool) (l : List α) :
    (stableSort le l).Perm l := by
  induction l with
  | nil => exact List.Perm.refl _
  | cons x xs ih => exact (insertSorted_perm le x (stableSort le xs)).trans (ih.cons x)

theorem insertSorted_pairwise {α : Type} (le : α → α → Bool)
    (htot : ∀ a b, le a b = true ∨ le b a = true)
    (htrans : ∀ a b c, le a b = true → le b c = true → le a c = true)
    (x : α) (l : List α) (hl : l.Pairwise (fun a b => le a b = true)) :
    (insertSorted le x l).Pairwise (fun a b => le a b = true) := by
  induction l with
  | nil => simp [insertSorted]
  | cons y ys ih =>
    unfold insertSorted
    rcases List.pairwise_cons.mp hl with ⟨hy, hys⟩
    by_cases h : le x y
    · rw [if_pos h]
      refine List.pairwise_cons.mpr ⟨?_, hl⟩
      intro z hz
      rcases List.mem_cons.mp hz with hz | hz
      · subst hz; exact h
      · exact htrans x y z h (hy z hz)
    · rw [if_neg h]
      refine List.pairwise_cons.mpr ⟨?_, ih hys⟩
      intro z hz
      have hz3 := (insertSorted_perm le x ys).mem_iff.mp hz
      rcases List.mem_cons.mp hz3 with hz2 | hz2
      · rcases htot x y with hxy | hyx
        · exact absurd hxy h
        · rw [hz2]; exact hyx
      · exact hy z hz2

theorem stableSort_pairwise {α : Type} (le : α → α → Bool)
    (htot : ∀ a b, le a b = true ∨ le b a = true)
    (htrans : ∀ a b c, le a b = true → le b c = true → le a c = true)
    (l : List α) :
    (stableSort le l).Pairwise (fun a b => le a b = true) := by
  induction l with
  | nil => simp [stableSort]
  | cons x xs ih => exact insertSorted_pairwise le htot htrans x _ ih

theorem stableSort_singleton {α : Type} (le : α → α → Bool) (x : α) :
    stableSort le [x] = [x] := rfl

/-! ## Connector resolver (claim C9) -/

theorem mkLine_eq_classify (a b : NumberPosition) : mkLine a b = classifyLineSpec a b := by
  cases ha : a.type <;> cases hb : b.type <;>
    simp [mkLine, classifyLineSpec, ha, hb]

theorem drawLinesLoop_eq_spec (l : List NumberPosition) :
    drawLinesLoop l =
      ((l.zip l.tail).filter (fun p => decide (p.2.number = p.1.number + 1))).map
        (fun p => classifyLineSpec p.1 p.2) := by
  induction l with
  | nil => rfl
  | cons a l ih =>
    cases l with
    | nil => rfl
    | cons b rest =>
      have hz : (a :: b :: rest).zip (a :: b :: rest).tail =
          (a, b) :: ((b :: rest).zip (b :: rest).tail) := by
        simp [List.zip]
      rw [hz]
      unfold drawLinesLoop
      rw [ih, List.filter_cons]
      by_cases h : b.number = a.number + 1
      · simp [h, mkLine_eq_classify]
      · simp [h]

/-- Claim C9: the position/adjacency resolver sorts the labels by
numeric value and emits a connector between two adjacent labels of the
sorted sequence exactly when the later value is the earlier plus one,
classified as request-request, response-response, or mixed by the
kinds of the endpoints. -/
theorem c9_consecutive_connectors (labels : List NumberPosition) :
    drawConnectingLines labels = specConnectors labels := by
  unfold drawConnectingLines specConnectors
  exact drawLinesLoop_eq_spec _

/-! ## Blank-submission rejection (claim C8) -/

theorem jsTrim_eq_nil (cs : List Char) (h : ∀ c ∈ cs, jsWhitespace c = true) :
    jsTrim cs = [] := by
  unfold jsTrim
  have h1 : cs.dropWhile jsWhitespace = [] := List.dropWhile_eq_nil_iff.mpr h
  rw [h1]
  rfl

/-- Claim C8: a submission whose text is empty or all whitespace is
rejected by the early return of `handleSendMessage`, before the entry
parser runs: the whole state (entry collection included) is returned
unchanged. -/
theorem c8_blank_submission_rejected (st : AppState) (now : Int) (nid : Nat)
    (h : ∀ c ∈ st.inputText, jsWhitespace c = true) :
    handleSendMessage st now nid = st := by
  unfold handleSendMessage
  rw [jsTrim_eq_nil st.inputText h]
  rfl

/-- Witness for C8 at a concrete whitespace-only state. -/
theorem c8_blank_submission_rejected_witness :
    handleSendMessage blankState 0 0 = blankState :=
  c8_blank_submission_rejected blankState 0 0 (by decide)

/-! ## Timestamp parser case sensitivity (claim C5) -/

theorem scanTimestamp_isSome_iff (cs : List Char) :
    (scanTimestamp cs).isSome = true ↔
      ∃ k, (matchTimestampAt (List.drop k cs)).isSome = true := by
  induction cs with
  | nil =>
    constructor
    · intro h; simp [scanTimestamp] at h
    · rintro ⟨k, hk⟩
      rw [List.drop_nil] at hk
      rw [show matchTimestampAt [] = none from rfl] at hk
      simp at hk
  | cons c rest ih =>
    constructor
    · intro h
      unfold scanTimestamp at h
      cases hm : matchTimestampAt (c :: rest) with
      | some m => exact ⟨0, by simp [hm]⟩
      | none =>
        rw [hm] at h
        obtain ⟨k, hk⟩ := ih.mp h
        exact ⟨k + 1, by simpa using hk⟩
    · rintro ⟨k, hk⟩
      unfold scanTimestamp
      cases hm : matchTimestampAt (c :: rest) with
      | some m => simp
      | none =>
        simp only []
        apply ih.mpr
        cases k with
        | zero =>
          rw [List.drop_zero] at hk
          rw [hm] at hk
          simp at hk
        | succ k => exact ⟨k, by simpa using hk⟩

/-- Counterexample to claim C5: the meridiem marker is matched
case-sensitively, so the lowercase variant of the same line parses to
nothing while the uppercase one parses to a timestamp. -/
theorem c5_counterexample :
    parseTimestamp lineLowerAm = none ∧ parseTimestamp lineUpperAm ≠ none ∧
    parseTimestamp lineLowerAm ≠ parseTimestamp lineUpperAm := by decide

/-- Claim C5 as amended: the parser recognizes the timestamp pattern
only with an uppercase meridiem marker (`[AP]M`, no ignore-case flag):
it produces a timestamp exactly when the pattern, uppercase marker
included, occurs at some position of the line. -/
theorem c5_case_sensitive_meridiem (cs : List Char) :
    (parseTimestamp cs).isSome = true ↔
      ∃ k, (matchTimestampAt (List.drop k cs)).isSome = true := by
  have h : (parseTimestamp cs).isSome = (scanTimestamp cs).isSome := by
    unfold parseTimestamp
    cases scanTimestamp cs <;> rfl
  rw [h]
  exact scanTimestamp_isSome_iff cs

/-! ## Last marker line wins (claim C6) -/

theorem scanLine_requestTimestamp (st : ScanSt) (line : List Char) :
    (scanLine st line).requestTimestamp =
      (if containsSub reqMarker (lowerStr line) then
        lastOr (parseTimestamp line) st.requestTimestamp
      else st.requestTimestamp) := by
  unfold scanLine lastOr
  by_cases h1 : containsSub reqMarker (lowerStr line) <;>
    by_cases h2 : containsSub respMarker (lowerStr line) <;>
      simp [h1, h2] <;> cases parseTimestamp line <;> rfl

theorem scanLine_responseTimestamp (st : ScanSt) (line : List Char) :
    (scanLine st line).responseTimestamp =
      (if containsSub respMarker (lowerStr line) then
        lastOr (parseTimestamp line) st.responseTimestamp
      else st.responseTimestamp) := by
  unfold scanLine lastOr
  by_cases h1 : containsSub reqMarker (lowerStr line) <;>
    by_cases h2 : containsSub respMarker (lowerStr line) <;>
      simp [h1, h2] <;> cases parseTimestamp line <;> rfl

theorem lastOr_none (o : Option Int) : lastOr o none = o := by
  cases o <;> rfl

theorem getLast?_cons_ne_none {α : Type} (a : α) (as : List α) :
    (a :: as).getLast? ≠ none := by
  induction as generalizing a with
  | nil => simp
  | cons b bs ih => rw [List.getLast?_cons_cons]; exact ih b

theorem getLast?_cons_lastOr (t : Int) (X : List Int) :
    (t :: X).getLast? = lastOr X.getLast? (some t) := by
  cases X with
  | nil => rfl
  | cons a as =>
    rw [List.getLast?_cons_cons]
    cases hgl : (a :: as).getLast? with
    | none => exact absurd hgl (getLast?_cons_ne_none a as)
    | some b => rfl

theorem lastOr_assoc (o : Option Int) (t : Int) (d : Option Int) :
    lastOr o (lastOr (some t) d) = lastOr (lastOr o (some t)) d := by
  cases o <;> rfl

theorem foldl_scanLine_request (ls : List (List Char)) (st : ScanSt) :
    (ls.foldl scanLine st).requestTimestamp =
      lastOr ((ls.filterMap (fun l =>
        if containsSub reqMarker (lowerStr l) then parseTimestamp l else none)).getLast?)
        st.requestTimestamp := by
  induction ls generalizing st with
  | nil => rfl
  | cons l ls ih =>
    rw [List.foldl_cons, ih, List.filterMap_cons, scanLine_requestTimestamp]
    by_cases h1 : containsSub reqMarker (lowerStr l)
    · rw [if_pos h1, if_pos h1]
      cases hp : parseTimestamp l with
      | none => rfl
      | some t =>
        rw [getLast?_cons_lastOr]
        exact lastOr_assoc _ t _
    · rw [if_neg h1, if_neg h1]

theorem foldl_scanLine_response (ls : List (List Char)) (st : ScanSt) :
    (ls.foldl scanLine st).responseTimestamp =
      lastOr ((ls.filterMap (fun l =>
        if containsSub respMarker (lowerStr l) then parseTimestamp l else none)).getLast?)
        st.responseTimestamp := by
  induction ls generalizing st with
  | nil => rfl
  | cons l ls ih =>
    rw [List.foldl_cons, ih, List.filterMap_cons, scanLine_responseTimestamp]
    by_cases h1 : containsSub respMarker (lowerStr l)
    · rw [if_pos h1, if_pos h1]
      cases hp : parseTimestamp l with
      | none => rfl
      | some t =>
        rw [getLast?_cons_lastOr]
        exact lastOr_assoc _ t _
    · rw [if_neg h1, if_neg h1]

/-- Counterexample to claim C6: with two request-marker lines carrying
different parseable timestamps, the recorded `requestTimestamp` is the
second (last) one, not the first. -/
theorem c6_counterexample :
    (parseLogEntry textTwoReq).requestTimestamp =
      parseTimestamp ("Request journal entry created: 1/1/2025 2:00:00.000 AM").toList ∧
    parseTimestamp ("Request journal entry created: 1/1/2025 1:00:00.000 AM").toList ≠
      parseTimestamp ("Request journal entry created: 1/1/2025 2:00:00.000 AM").toList := by
  decide

/-- Claim C6 as amended: with several request-marker lines the entry
parser records the timestamp of the last marker line whose timestamp
parses (marker lines whose timestamp does not parse leave the value
unchanged); symmetrically for response. -/
theorem c6_last_marker_wins (text : List Char) :
    (parseLogEntry text).requestTimestamp = lastReqTimestamp text ∧
    (parseLogEntry text).responseTimestamp = lastRespTimestamp text := by
  constructor
  · simp only [parseLogEntry, lastReqTimestamp]
    rw [foldl_scanLine_request, lastOr_none]
  · simp only [parseLogEntry, lastRespTimestamp]
    rw [foldl_scanLine_response, lastOr_none]

/-! ## Scenario A (claim C1) -/

/-- Counterexample to claim C1: the two entries do get requestNumber 1
and responseNumber 2, but the ranges [1,1] and [2,2] fail the overlap
test, so the grouper produces two groups, not one. -/
theorem c1_counterexample :
    ((getNumberedEntries scenarioEntries).map LogEntry.requestNumber = [some 1, none]) ∧
    ((getNumberedEntries scenarioEntries).map LogEntry.responseNumber = [none, some 2]) ∧
    (getTableGroups (getNumberedEntries scenarioEntries)).length = 2 := by decide

/-- Claim C1 as amended: entry A gets requestNumber 1 and entry B gets
responseNumber 2, but since their ranges [1,1] and [2,2] do not
overlap, the grouper puts them into two separate singleton groups with
ranges [1,1] and [2,2] (not one group of range [1,2]). -/
theorem c1_scenario_a_two_groups :
    ((getNumberedEntries scenarioEntries).map LogEntry.requestNumber = [some 1, none]) ∧
    ((getNumberedEntries scenarioEntries).map LogEntry.responseNumber = [none, some 2]) ∧
    ((getTableGroups (getNumberedEntries scenarioEntries)).map
      (fun g => (g.entries.map LogEntry.id, g.minNumber, g.maxNumber)) =
      [([1], 1, 1), ([2], 2, 2)]) := by decide

/-! ## First-fit grouping (claim C2) -/

theorem tryJoin_eq_firstFitIdx (e : LogEntry) (r : Nat × Nat) (gs : List TableGroup) :
    tryJoin e r gs =
      (firstFitIdx r gs).map
        (fun i => gs.set i (widenGroup (gs.getD i defaultGroup) e r)) := by
  induction gs with
  | nil => rfl
  | cons g gs ih =>
    by_cases h : rangeOverlaps r g
    · simp [tryJoin, firstFitIdx, h]
    · unfold tryJoin firstFitIdx
      rw [if_neg h, if_neg h, ih]
      cases hf : firstFitIdx r gs with
      | none => rfl
      | some i => simp

theorem firstFitIdx_none_iff (r : Nat × Nat) (gs : List TableGroup) :
    firstFitIdx r gs = none ↔ ∀ g ∈ gs, ¬rangeOverlaps r g := by
  induction gs with
  | nil => simp [firstFitIdx]
  | cons g gs ih =>
    unfold firstFitIdx
    by_cases h : rangeOverlaps r g
    · simp [h]
    · simp [h, ih]

theorem firstFitIdx_some_spec (r : Nat × Nat) (gs : List TableGroup) (i : Nat)
    (h : firstFitIdx r gs = some i) :
    ∃ g, gs.get? i = some g ∧ rangeOverlaps r g ∧
      ∀ j h0, gs.get? j = some h0 → j < i → ¬rangeOverlaps r h0 := by
  induction gs generalizing i with
  | nil => simp [firstFitIdx] at h
  | cons g gs ih =>
    unfold firstFitIdx at h
    by_cases hov : rangeOverlaps r g
    · rw [if_pos hov] at h
      injection h with h
      subst h
      exact ⟨g, rfl, hov, fun j h0 hj hlt => absurd hlt (Nat.not_lt_zero j)⟩
    · rw [if_neg hov] at h
      cases hf : firstFitIdx r gs with
      | none => rw [hf] at h; simp at h
      | some i0 =>
        rw [hf] at h
        simp at h
        subst h
        obtain ⟨g0, hget, hov0, hfirst⟩ := ih i0 hf
        refine ⟨g0, hget, hov0, ?_⟩
        intro j h0 hj hlt
        cases j with
        | zero =>
          injection hj with hj
          subst hj
          exact hov
        | succ j => exact hfirst j h0 hj (Nat.lt_of_succ_lt_succ hlt)

theorem placeEntry_eq_specStep : placeEntry = specStep := by
  funext gs e
  unfold placeEntry specStep
  cases hr : getEntryRange e with
  | none => rfl
  | some r =>
    dsimp only
    rw [tryJoin_eq_firstFitIdx]
    cases hf : firstFitIdx r gs with
    | none => rfl
    | some i => rfl

/-- Claim C2: the grouper is exactly the first-fit single-pass
algorithm. First conjunct: the pipeline equals the specification-side
grouper (sort ascending by range minimum, fold the first-fit step,
present). Second conjunct: one step either widens precisely the first
overlapping existing group (in creation order) to the union of the
bounds, or appends a brand-new group holding exactly the entry with
bounds equal to its range; existing groups are never merged. -/
theorem c2_first_fit_grouping :
    (∀ entries, getTableGroups entries = specGrouper entries) ∧
    (∀ gs e r, getEntryRange e = some r →
      (∃ i g, gs.get? i = some g ∧ rangeOverlaps r g ∧
        (∀ j h0, gs.get? j = some h0 → j < i → ¬rangeOverlaps r h0) ∧
        placeEntry gs e = gs.set i (widenGroup g e r)) ∨
      ((∀ g ∈ gs, ¬rangeOverlaps r g) ∧
        placeEntry gs e = gs ++ [⟨gs.length + 1, [e], r.1, r.2⟩])) := by
  constructor
  · intro entries
    unfold getTableGroups specGrouper
    rw [placeEntry_eq_specStep]
  · intro gs e r hr
    unfold placeEntry
    rw [hr]
    dsimp only
    rw [tryJoin_eq_firstFitIdx]
    cases hf : firstFitIdx r gs with
    | none =>
      right
      exact ⟨(firstFitIdx_none_iff r gs).mp hf, rfl⟩
    | some i =>
      left
      obtain ⟨g, hget, hov, hfirst⟩ := firstFitIdx_some_spec r gs i hf
      refine ⟨i, g, hget, hov, hfirst, ?_⟩
      show gs.set i (widenGroup (gs.getD i defaultGroup) e r) = gs.set i (widenGroup g e r)
      rw [List.getD_eq_get?, hget, Option.getD_some]

/-- Witness for C2 at a concrete step: the second entry of scenario A,
with range [2,2], does not fit the existing group of range [1,1], so a
fresh group is appended. -/
theorem c2_first_fit_grouping_witness :
    (∃ i g, [(⟨1, [entryA], 1, 1⟩ : TableGroup)].get? i = some g ∧ rangeOverlaps (2, 2) g ∧
      (∀ j h0, [(⟨1, [entryA], 1, 1⟩ : TableGroup)].get? j = some h0 → j < i →
        ¬rangeOverlaps (2, 2) h0) ∧
      placeEntry [⟨1, [entryA], 1, 1⟩] (scenarioNumbered.getD 1 entryB) =
        [(⟨1, [entryA], 1, 1⟩ : TableGroup)].set i
          (widenGroup g (scenarioNumbered.getD 1 entryB) (2, 2))) ∨
    ((∀ g ∈ [(⟨1, [entryA], 1, 1⟩ : TableGroup)], ¬rangeOverlaps (2, 2) g) ∧
      placeEntry [⟨1, [entryA], 1, 1⟩] (scenarioNumbered.getD 1 entryB) =
        [⟨1, [entryA], 1, 1⟩] ++ [⟨2, [scenarioNumbered.getD 1 entryB], 2, 2⟩]) :=
  c2_first_fit_grouping.2 [⟨1, [entryA], 1, 1⟩] (scenarioNumbered.getD 1 entryB) (2, 2) (by decide)

/-! ## Range well-formedness -/

theorem foldl_min_le (l : List Nat) (n : Nat) : l.foldl Nat.min n ≤ n := by
  induction l generalizing n with
  | nil => exact Nat.le_refl n
  | cons x l ih =>
    rw [List.foldl_cons]
    exact Nat.le_trans (ih (Nat.min n x)) (Nat.min_le_left n x)

theorem le_foldl_max (l : List Nat) (n : Nat) : n ≤ l.foldl Nat.max n := by
  induction l generalizing n with
  | nil => exact Nat.le_refl n
  | cons x l ih =>
    rw [List.foldl_cons]
    exact Nat.le_trans (Nat.le_max_left n x) (ih (Nat.max n x))

theorem one_le_foldl_min (l : List Nat) (n : Nat) (hn : 1 ≤ n) (hl : ∀ m ∈ l, 1 ≤ m) :
    1 ≤ l.foldl Nat.min n := by
  induction l generalizing n with
  | nil => exact hn
  | cons x l ih =>
    rw [List.foldl_cons]
    exact ih (Nat.min n x) (Nat.le_min.mpr ⟨hn, hl x (by simp)⟩)
      (fun m hm => hl m (by simp [hm]))

theorem foldl_min_le_foldl_max (l : List Nat) (n : Nat) :
    l.foldl Nat.min n ≤ l.foldl Nat.max n :=
  Nat.le_trans (foldl_min_le l n) (le_foldl_max l n)

theorem getEntryNumbers_pos (e : LogEntry) : ∀ n ∈ getEntryNumbers e, 1 ≤ n := by
  intro n hn
  unfold getEntryNumbers at hn
  rcases List.mem_append.mp hn with h | h
  · cases hq : e.requestNumber with
    | none => rw [hq] at h; simp at h
    | some m =>
      rw [hq] at h
      by_cases hm : m = 0
      · simp [hm] at h
      · simp [hm] at h; subst h; omega
  · cases hq : e.responseNumber with
    | none => rw [hq] at h; simp at h
    | some m =>
      rw [hq] at h
      by_cases hm : m = 0
      · simp [hm] at h
      · simp [hm] at h; subst h; omega

theorem getEntryRange_wf (e : LogEntry) (r : Nat × Nat) (h : getEntryRange e = some r) :
    1 ≤ r.1 ∧ r.1 ≤ r.2 := by
  unfold getEntryRange at h
  cases hns : getEntryNumbers e with
  | nil => rw [hns] at h; simp at h
  | cons n rest =>
    rw [hns] at h
    simp only [Option.some.injEq] at h
    subst h
    constructor
    · exact one_le_foldl_min rest n
        (getEntryNumbers_pos e n (by rw [hns]; simp))
        (fun m hm => getEntryNumbers_pos e m (by rw [hns]; simp [hm]))
    · exact foldl_min_le_foldl_max rest n

/-! ## Chain connectivity -/

theorem connectedIn_mono (l l2 : List LogEntry) (hsub : ∀ z ∈ l, z ∈ l2) (x y : LogEntry) :
    ConnectedIn l x y → ConnectedIn l2 x y := by
  rintro ⟨c, hh, hl, hmem, hch⟩
  exact ⟨c, hh, hl, fun z hz => hsub z (hmem z hz), hch⟩

theorem connectedIn_single (l : List LogEntry) (x : LogEntry) (hx : x ∈ l) :
    ConnectedIn l x x :=
  ⟨[x], rfl, rfl, by simpa using hx, List.chain'_singleton x⟩

theorem connectedIn_snoc (l : List LogEntry) (x w e : LogEntry)
    (h : ConnectedIn l x w) (hov : entryOverlaps w e) :
    ConnectedIn (l ++ [e]) x e := by
  obtain ⟨c, hh, hl, hmem, hch⟩ := h
  cases c with
  | nil => simp at hh
  | cons a c0 =>
    refine ⟨(a :: c0) ++ [e], ?_, List.getLast?_concat _, ?_, ?_⟩
    · simpa using hh
    · intro z hz
      rcases List.mem_append.mp hz with hz | hz
      · exact List.mem_append_left _ (hmem z hz)
      · exact List.mem_append_right _ hz
    · rw [List.chain'_append]
      refine ⟨hch, List.chain'_singleton e, ?_⟩
      intro p hp q hq
      simp only [List.head?_cons, Option.mem_def, Option.some.injEq] at hq
      rw [hl] at hp
      simp only [Option.mem_def, Option.some.injEq] at hp
      subst hp; subst hq
      exact hov

theorem connectedIn_cons_out (l : List LogEntry) (w y e : LogEntry)
    (h : ConnectedIn l w y) (hov : entryOverlaps e w) :
    ConnectedIn (l ++ [e]) e y := by
  obtain ⟨c, hh, hl, hmem, hch⟩ := h
  cases c with
  | nil => simp at hh
  | cons a c0 =>
    refine ⟨e :: a :: c0, rfl, ?_, ?_, ?_⟩
    · rw [← hl]
      rfl
    · intro z hz
      rcases List.mem_cons.mp hz with hz | hz
      · subst hz; exact List.mem_append_right _ (by simp)
      · exact List.mem_append_left _ (hmem z hz)
    · rw [List.chain'_cons]
      constructor
      · simp only [List.head?_cons, Option.some.injEq] at hh
        rw [hh]
        exact hov
      · exact hch

/-! ## Grouper invariant -/

theorem entryOverlaps_of_ranges (a b : LogEntry) (ra rb : Nat × Nat)
    (ha : getEntryRange a = some ra) (hb : getEntryRange b = some rb)
    (h : ¬(ra.2 < rb.1 ∨ rb.2 < ra.1)) : entryOverlaps a b := by
  unfold entryOverlaps
  rw [ha, hb]
  exact h

theorem tryJoin_some_spec (e : LogEntry) (r : Nat × Nat) (gs gs2 : List TableGroup)
    (h : tryJoin e r gs = some gs2) :
    ∃ i g0, gs.get? i = some g0 ∧ rangeOverlaps r g0 ∧
      (∀ j h0, gs.get? j = some h0 → j < i → ¬rangeOverlaps r h0) ∧
      gs2 = gs.set i (widenGroup g0 e r) := by
  rw [tryJoin_eq_firstFitIdx] at h
  cases hf : firstFitIdx r gs with
  | none => rw [hf] at h; simp at h
  | some i =>
    rw [hf, Option.map_some'] at h
    obtain ⟨g0, hget, hov, hfirst⟩ := firstFitIdx_some_spec r gs i hf
    refine ⟨i, g0, hget, hov, hfirst, ?_⟩
    have hD : gs.getD i defaultGroup = g0 := by
      rw [List.getD_eq_get?, hget, Option.getD_some]
    rw [← hD]
    injection h with h
    exact h.symm

theorem groupInv_widen (g : TableGroup) (e : LogEntry) (r : Nat × Nat)
    (hg : GroupInv g) (hr : getEntryRange e = some r) (hov : rangeOverlaps r g)
    (hmins : ∀ w ∈ g.entries, ∀ rw0, getEntryRange w = some rw0 → rw0.1 ≤ r.1) :
    GroupInv (widenGroup g e r) := by
  have hwf := getEntryRange_wf e r hr
  unfold rangeOverlaps at hov
  push_neg at hov
  rcases hg with ⟨hm0, hM0, e0, hent, hrng⟩ | ⟨hmin, hall, ⟨w, rw0, hw, hwr, hwmax⟩, hconn⟩
  · exfalso
    rw [hM0] at hov
    omega
  · right
    refine ⟨?_, ?_, ?_, ?_⟩
    · show 1 ≤ Nat.min g.minNumber r.1
      exact Nat.le_min.mpr ⟨hmin, hwf.1⟩
    · intro x hx
      rcases List.mem_append.mp hx with hx | hx
      · exact hall x hx
      · simp at hx; subst hx; exact ⟨r, hr⟩
    · by_cases hcase : r.2 ≤ g.maxNumber
      · refine ⟨w, rw0, List.mem_append_left _ hw, hwr, ?_⟩
        show rw0.2 = max g.maxNumber r.2
        omega
      · refine ⟨e, r, List.mem_append_right _ (by simp), hr, ?_⟩
        show r.2 = max g.maxNumber r.2
        omega
    · have hwme := hmins w hw rw0 hwr
      have hovwe : entryOverlaps w e :=
        entryOverlaps_of_ranges w e rw0 r hwr hr (by omega)
      have hovew : entryOverlaps e w :=
        entryOverlaps_of_ranges e w r rw0 hr hwr (by omega)
      intro x hx y hy
      show ConnectedIn (g.entries ++ [e]) x y
      have hx2 : x ∈ g.entries ++ [e] := hx
      rcases List.mem_append.mp hx2 with hx3 | hx3 <;>
        rcases List.mem_append.mp (show y ∈ g.entries ++ [e] from hy) with hy3 | hy3
      · exact connectedIn_mono g.entries _ (fun z hz => List.mem_append_left _ hz) x y
          (hconn x hx3 y hy3)
      · simp at hy3
        rw [hy3]
        exact connectedIn_snoc g.entries x w e (hconn x hx3 w hw) hovwe
      · simp at hx3
        rw [hx3]
        exact connectedIn_cons_out g.entries w y e (hconn w hw y hy3) hovew
      · simp at hx3 hy3
        rw [hx3, hy3]
        exact connectedIn_single _ e (List.mem_append_right _ (by simp))

theorem placeEntry_inv (gs : List TableGroup) (e : LogEntry)
    (hinv : ∀ g ∈ gs, GroupInv g)
    (hmins : ∀ re, getEntryRange e = some re →
      ∀ g ∈ gs, ∀ w ∈ g.entries, ∀ rw0, getEntryRange w = some rw0 → rw0.1 ≤ re.1) :
    ∀ g ∈ placeEntry gs e, GroupInv g := by
  intro g hg
  unfold placeEntry at hg
  cases hr : getEntryRange e with
  | none =>
    rw [hr] at hg
    rcases List.mem_append.mp hg with hg | hg
    · exact hinv g hg
    · simp at hg; subst hg
      exact Or.inl ⟨rfl, rfl, e, rfl, hr⟩
  | some r =>
    rw [hr] at hg
    dsimp only at hg
    have hwf := getEntryRange_wf e r hr
    cases ht : tryJoin e r gs with
    | none =>
      rw [ht] at hg
      dsimp only at hg
      rcases List.mem_append.mp hg with hg | hg
      · exact hinv g hg
      · simp at hg; subst hg
        right
        refine ⟨hwf.1, ?_, ⟨e, r, by simp, hr, rfl⟩, ?_⟩
        · intro x hx; simp at hx; subst hx; exact ⟨r, hr⟩
        · intro x hx y hy
          simp at hx hy
          rw [hx, hy]
          exact connectedIn_single _ e (by simp)
    | some gs2 =>
      rw [ht] at hg
      dsimp only at hg
      obtain ⟨i, g0, hget, hov, hfirst, hset⟩ := tryJoin_some_spec e r gs gs2 ht
      subst hset
      rcases List.mem_or_eq_of_mem_set hg with hg2 | hg2
      · exact hinv g hg2
      · subst hg2
        exact groupInv_widen g0 e r (hinv g0 (List.get?_mem hget)) hr hov
          (fun w hw rw0 hrw0 => hmins r hr g0 (List.get?_mem hget) w hw rw0 hrw0)

theorem placeEntry_members (gs : List TableGroup) (e : LogEntry) (g : TableGroup)
    (hg : g ∈ placeEntry gs e) (w : LogEntry) (hw : w ∈ g.entries) :
    (∃ g1 ∈ gs, w ∈ g1.entries) ∨ w = e := by
  unfold placeEntry at hg
  cases hr : getEntryRange e with
  | none =>
    rw [hr] at hg
    rcases List.mem_append.mp hg with hg | hg
    · exact Or.inl ⟨g, hg, hw⟩
    · simp at hg; subst hg; simp at hw; exact Or.inr hw
  | some r =>
    rw [hr] at hg
    dsimp only at hg
    cases ht : tryJoin e r gs with
    | none =>
      rw [ht] at hg
      dsimp only at hg
      rcases List.mem_append.mp hg with hg | hg
      · exact Or.inl ⟨g, hg, hw⟩
      · simp at hg; subst hg; simp at hw; exact Or.inr hw
    | some gs2 =>
      rw [ht] at hg
      dsimp only at hg
      obtain ⟨i, g0, hget, hov, hfirst, hset⟩ := tryJoin_some_spec e r gs gs2 ht
      subst hset
      rcases List.mem_or_eq_of_mem_set hg with hg2 | hg2
      · exact Or.inl ⟨g, hg2, hw⟩
      · subst hg2
        have hw2 : w ∈ g0.entries ++ [e] := hw
        rcases List.mem_append.mp hw2 with hw3 | hw3
        · exact Or.inl ⟨g0, List.get?_mem hget, hw3⟩
        · simp at hw3; exact Or.inr hw3

theorem foldl_placeEntry_inv (l : List LogEntry) (gs : List TableGroup)
    (hsorted : l.Pairwise (fun a b => keyLe (minKey a) (minKey b) = true))
    (hcross : ∀ e ∈ l, ∀ re, getEntryRange e = some re →
      ∀ g ∈ gs, ∀ w ∈ g.entries, ∀ rw0, getEntryRange w = some rw0 → rw0.1 ≤ re.1)
    (hinv : ∀ g ∈ gs, GroupInv g) :
    ∀ g ∈ l.foldl placeEntry gs, GroupInv g := by
  induction l generalizing gs with
  | nil => simpa using hinv
  | cons e l ih =>
    rw [List.foldl_cons]
    rcases List.pairwise_cons.mp hsorted with ⟨hhead, htail⟩
    refine ih (placeEntry gs e) htail ?_ ?_
    · intro e2 he2 re2 hre2 g hgmem w hw rw0 hrw0
      rcases placeEntry_members gs e g hgmem w hw with ⟨g1, hg1, hw1⟩ | hwe
      · exact hcross e2 (by simp [he2]) re2 hre2 g1 hg1 w hw1 rw0 hrw0
      · subst hwe
        have hk := hhead e2 he2
        unfold keyLe minKey at hk
        rw [hrw0, hre2] at hk
        simp only [Option.map_some'] at hk
        exact of_decide_eq_true hk
    · exact placeEntry_inv gs e hinv
        (fun re hre g hgm w hw rw0 hrw0 => hcross e (by simp) re hre g hgm w hw rw0 hrw0)

theorem keyLe_total (a b : Option Nat) : keyLe a b = true ∨ keyLe b a = true := by
  cases a <;> cases b <;> simp [keyLe] <;> omega

theorem keyLe_trans (a b c : Option Nat) :
    keyLe a b = true → keyLe b c = true → keyLe a c = true := by
  cases a <;> cases b <;> cases c <;> simp [keyLe] <;> omega

theorem groupInv_sortEntries (g : TableGroup) (h : GroupInv g) :
    GroupInv { g with entries := sortEntriesByMin g.entries } := by
  rcases h with ⟨h1, h2, e, hent, hr⟩ | ⟨h1, h2, ⟨w, rw0, hw, hwr, hwm⟩, hconn⟩
  · left
    refine ⟨h1, h2, e, ?_, hr⟩
    show sortEntriesByMin g.entries = [e]
    rw [hent]
    rfl
  · right
    have hperm := stableSort_perm (fun a b => keyLe (minKey a) (minKey b)) g.entries
    refine ⟨h1, ?_, ⟨w, rw0, hperm.mem_iff.mpr hw, hwr, hwm⟩, ?_⟩
    · intro x hx
      exact h2 x (hperm.mem_iff.mp hx)
    · intro x hx y hy
      exact connectedIn_mono g.entries _ (fun z hz => hperm.mem_iff.mpr hz) x y
        (hconn x (hperm.mem_iff.mp hx) y (hperm.mem_iff.mp hy))

theorem sortEntriesByMin_pairwise (l : List LogEntry) :
    (sortEntriesByMin l).Pairwise (fun a b => keyLe (minKey a) (minKey b) = true) :=
  stableSort_pairwise _ (fun a b => keyLe_total (minKey a) (minKey b))
    (fun a b c => keyLe_trans (minKey a) (minKey b) (minKey c)) l

theorem getTableGroups_inv (entries : List LogEntry) :
    ∀ g ∈ getTableGroups entries, GroupInv g := by
  intro g hg
  unfold getTableGroups at hg
  by_cases hemp : entries.isEmpty
  · rw [if_pos hemp] at hg; simp at hg
  · rw [if_neg hemp] at hg
    dsimp only at hg
    have hg2 := (stableSort_perm (fun a b : TableGroup => decide (a.minNumber ≤ b.minNumber)) _).mem_iff.mp hg
    obtain ⟨g0, hg0, hge⟩ := List.mem_map.mp hg2
    have hinv0 : GroupInv g0 :=
      foldl_placeEntry_inv (sortEntriesByMin entries) [] (sortEntriesByMin_pairwise entries)
        (by intro e he re hre g1 hgm; simp at hgm) (by simp) g0 hg0
    rw [← hge]
    exact groupInv_sortEntries g0 hinv0

theorem foldl_placeEntry_members (l : List LogEntry) (gs : List TableGroup)
    (g : TableGroup) (hg : g ∈ l.foldl placeEntry gs) (w : LogEntry) (hw : w ∈ g.entries) :
    (∃ g1 ∈ gs, w ∈ g1.entries) ∨ w ∈ l := by
  induction l generalizing gs with
  | nil => simp at hg; exact Or.inl ⟨g, hg, hw⟩
  | cons e l ih =>
    rw [List.foldl_cons] at hg
    rcases ih (placeEntry gs e) hg with ⟨g1, hg1, hw1⟩ | hwl
    · rcases placeEntry_members gs e g1 hg1 w hw1 with h | h
      · exact Or.inl h
      · exact Or.inr (by simp [h])
    · exact Or.inr (by simp [hwl])

theorem getTableGroups_members (entries : List LogEntry) (g : TableGroup)
    (hg : g ∈ getTableGroups entries) (w : LogEntry) (hw : w ∈ g.entries) :
    w ∈ entries := by
  unfold getTableGroups at hg
  by_cases hemp : entries.isEmpty
  · rw [if_pos hemp] at hg; simp at hg
  · rw [if_neg hemp] at hg
    dsimp only at hg
    have hg2 := (stableSort_perm (fun a b : TableGroup => decide (a.minNumber ≤ b.minNumber)) _).mem_iff.mp hg
    obtain ⟨g0, hg0, hge⟩ := List.mem_map.mp hg2
    have hw0 : w ∈ g0.entries := by
      rw [← hge] at hw
      exact (stableSort_perm (fun a b => keyLe (minKey a) (minKey b)) g0.entries).mem_iff.mp hw
    rcases foldl_placeEntry_members (sortEntriesByMin entries) [] g0 hg0 w hw0 with ⟨g1, hg1, _⟩ | hmem
    · simp at hg1
    · exact (stableSort_perm (fun a b => keyLe (minKey a) (minKey b)) entries).mem_iff.mp hmem

/-- Claim C4: any two entries placed in the same group are connected
through a chain of member entries whose consecutive number ranges
pairwise overlap, even when the two ranges do not overlap directly. -/
theorem c4_group_chain_connected (entries : List LogEntry) (g : TableGroup)
    (hg : g ∈ getTableGroups entries) (x : LogEntry) (hx : x ∈ g.entries)
    (y : LogEntry) (hy : y ∈ g.entries) :
    ConnectedIn g.entries x y := by
  rcases getTableGroups_inv entries g hg with ⟨_, _, e, hent, _⟩ | ⟨_, _, _, hconn⟩
  · rw [hent] at hx hy
    simp at hx hy
    rw [hx, hy]
    exact connectedIn_single _ e (by rw [hent]; simp)
  · exact hconn x hx y hy

/-- Witness for C4 on the scenario A groups: the sole entry of the
first group is connected to itself. -/
theorem c4_group_chain_connected_witness :
    ConnectedIn (scenarioGroups.headD defaultGroup).entries
      ((scenarioGroups.headD defaultGroup).entries.headD entryA)
      ((scenarioGroups.headD defaultGroup).entries.headD entryA) :=
  c4_group_chain_connected scenarioNumbered (scenarioGroups.headD defaultGroup)
    (by decide) _ (by decide) _ (by decide)

/-! ## No-marker entries are isolated (claim C7) -/

theorem numberEntry_no_markers (sorted : List Event) (e : LogEntry)
    (hR : e.hasRequest = false) (hS : e.hasResponse = false) :
    numberEntry sorted e = e := by
  unfold numberEntry
  simp [hR, hS]

theorem numberEntry_hasRequest (sorted : List Event) (e : LogEntry) :
    (numberEntry sorted e).hasRequest = e.hasRequest := by
  unfold numberEntry
  by_cases h1 : e.hasRequest ∧ e.requestTimestamp.isSome <;>
    by_cases h2 : e.hasResponse ∧ e.responseTimestamp.isSome <;>
      simp [h1, h2]

theorem numberEntry_hasResponse (sorted : List Event) (e : LogEntry) :
    (numberEntry sorted e).hasResponse = e.hasResponse := by
  unfold numberEntry
  by_cases h1 : e.hasRequest ∧ e.requestTimestamp.isSome <;>
    by_cases h2 : e.hasResponse ∧ e.responseTimestamp.isSome <;>
      simp [h1, h2]

/-- Claim C7: an entry with neither marker phrase keeps both numbers
absent through the sequencer, so its range is empty and the grouper
isolates it in its own singleton group; no other entry ever joins. -/
theorem c7_no_marker_isolated (entries : List LogEntry)
    (hraw : ∀ e ∈ entries, e.requestNumber = none ∧ e.responseNumber = none)
    (g : TableGroup) (hg : g ∈ getTableGroups (getNumberedEntries entries))
    (e : LogEntry) (he : e ∈ g.entries)
    (hR : e.hasRequest = false) (hS : e.hasResponse = false) :
    g.entries = [e] := by
  have hmem : e ∈ getNumberedEntries entries := getTableGroups_members _ g hg e he
  have hrange : getEntryRange e = none := by
    unfold getNumberedEntries at hmem
    by_cases hemp : entries.isEmpty
    · rw [if_pos hemp] at hmem; simp at hmem
    · rw [if_neg hemp] at hmem
      obtain ⟨e0, he0, heq⟩ := List.mem_map.mp hmem
      have hR0 : e0.hasRequest = false := by
        rw [← numberEntry_hasRequest (sortEvents (allEvents entries)) e0, heq]
        exact hR
      have hS0 : e0.hasResponse = false := by
        rw [← numberEntry_hasResponse (sortEvents (allEvents entries)) e0, heq]
        exact hS
      have he0e : e0 = e := by
        rw [← heq, numberEntry_no_markers _ e0 hR0 hS0]
      rw [← he0e]
      simp [getEntryRange, getEntryNumbers, (hraw e0 he0).1, (hraw e0 he0).2]
  rcases getTableGroups_inv (getNumberedEntries entries) g hg with
    ⟨_, _, e1, hent, _⟩ | ⟨_, hall, _, _⟩
  · rw [hent] at he
    simp at he
    rw [hent, he]
  · obtain ⟨r, hr⟩ := hall e he
    rw [hrange] at hr
    simp at hr

/-- Witness for C7: the no-marker entry of the mixed collection sits
alone in its group. -/
theorem c7_no_marker_isolated_witness :
    (mixedGroups.headD defaultGroup).entries =
      [(mixedGroups.headD defaultGroup).entries.headD entryC] :=
  c7_no_marker_isolated mixedEntries (by decide) (mixedGroups.headD defaultGroup)
    (by decide) ((mixedGroups.headD defaultGroup).entries.headD entryC)
    (by decide) (by decide) (by decide)

/-! ## No-number groups come first (claim C10) -/

/-- Claim C10: a singleton group made for an entry with no numbers has
minNumber = maxNumber = 0; any group containing a numbered entry has
minNumber at least 1; the final group list is sorted ascending by
minNumber; hence a numbered group is never followed by a no-number
group in the output order. -/
theorem c10_no_number_groups_first (entries : List LogEntry) :
    (∀ g ∈ getTableGroups entries, (∃ e ∈ g.entries, getEntryRange e = none) →
      g.minNumber = 0 ∧ g.maxNumber = 0) ∧
    (∀ g ∈ getTableGroups entries, (∃ e ∈ g.entries, getEntryRange e ≠ none) →
      1 ≤ g.minNumber) ∧
    (getTableGroups entries).Pairwise (fun a b => a.minNumber ≤ b.minNumber) ∧
    (∀ i j gi gj, i < j → (getTableGroups entries).get? i = some gi →
      (getTableGroups entries).get? j = some gj →
      1 ≤ gi.minNumber → 1 ≤ gj.minNumber) := by
  have hpair : (getTableGroups entries).Pairwise (fun a b => a.minNumber ≤ b.minNumber) := by
    unfold getTableGroups
    by_cases hemp : entries.isEmpty
    · rw [if_pos hemp]; simp
    · rw [if_neg hemp]
      dsimp only
      have := stableSort_pairwise (fun a b : TableGroup => decide (a.minNumber ≤ b.minNumber))
        (fun a b => by rcases Nat.le_total a.minNumber b.minNumber with h | h <;> simp [h])
        (fun a b c h1 h2 => by
          simp only [decide_eq_true_eq] at h1 h2 ⊢
          omega)
        ((List.foldl placeEntry [] (sortEntriesByMin entries)).map
          (fun g => { g with entries := sortEntriesByMin g.entries }))
      exact this.imp (fun h => of_decide_eq_true h)
  refine ⟨?_, ?_, hpair, ?_⟩
  · intro g hg ⟨e, he, hre⟩
    rcases getTableGroups_inv entries g hg with ⟨h1, h2, _⟩ | ⟨_, hall, _, _⟩
    · exact ⟨h1, h2⟩
    · obtain ⟨r, hr⟩ := hall e he
      rw [hre] at hr
      simp at hr
  · intro g hg ⟨e, he, hre⟩
    rcases getTableGroups_inv entries g hg with ⟨_, _, e1, hent, hr1⟩ | ⟨h1, _, _, _⟩
    · exfalso
      rw [hent] at he
      simp at he
      rw [he] at hre
      exact hre hr1
    · exact h1
  · intro i j gi gj hij hgi hgj h1
    obtain ⟨hilen, higet⟩ := List.get?_eq_some.mp hgi
    obtain ⟨hjlen, hjget⟩ := List.get?_eq_some.mp hgj
    have := List.pairwise_iff_get.mp hpair ⟨i, hilen⟩ ⟨j, hjlen⟩ hij
    rw [higet, hjget] at this
    omega

/-- Witness for C10 on the mixed collection: its first output group is
the no-number singleton, with bounds 0 and 0. -/
theorem c10_no_number_groups_first_witness :
    (mixedGroups.headD defaultGroup).minNumber = 0 ∧
    (mixedGroups.headD defaultGroup).maxNumber = 0 :=
  (c10_no_number_groups_first mixedNumbered).1 (mixedGroups.headD defaultGroup)
    (by decide)
    ⟨(mixedGroups.headD defaultGroup).entries.headD entryC, by decide, by decide⟩

/-! ## Dense global ranks (claim C3) -/

theorem enumFrom_filterMap_not_mem (k : Nat × Kind) :
    ∀ (l : List Event) (n : Nat), (∀ ev ∈ l, ev.eid ≠ k) →
      (enumFrom n l).filterMap
        (fun p => if p.2.eid = k then some (p.1 + 1) else none) = [] := by
  intro l
  induction l with
  | nil => intro n _; rfl
  | cons ev l ih =>
    intro n h
    rw [show enumFrom n (ev :: l) = (n, ev) :: enumFrom (n + 1) l from rfl]
    rw [List.filterMap_cons]
    dsimp only
    rw [if_neg (h ev (by simp))]
    exact ih (n + 1) (fun x hx => h x (by simp [hx]))

theorem enumFrom_filterMap_unique (k : Nat × Kind) :
    ∀ (l : List Event) (i n : Nat) (hi : i < l.length),
      (l.map Event.eid).Nodup → (l.get ⟨i, hi⟩).eid = k →
      (enumFrom n l).filterMap
        (fun p => if p.2.eid = k then some (p.1 + 1) else none) = [n + i + 1] := by
  intro l
  induction l with
  | nil => intro i n hi _ _; exact absurd hi (Nat.not_lt_zero i)
  | cons ev l ih =>
    intro i n hi hnod hk
    rw [List.map_cons, List.nodup_cons] at hnod
    obtain ⟨hnotin, hnod2⟩ := hnod
    rw [show enumFrom n (ev :: l) = (n, ev) :: enumFrom (n + 1) l from rfl]
    rw [List.filterMap_cons]
    dsimp only
    cases i with
    | zero =>
      have hev : ev.eid = k := hk
      rw [if_pos hev]
      rw [enumFrom_filterMap_not_mem k l (n + 1) ?hne]
      case hne =>
        intro x hx hxk
        refine hnotin ?_
        rw [show ev.eid = x.eid from (hxk.trans hev.symm).symm]
        exact List.mem_map_of_mem _ hx
    | succ i0 =>
      rw [List.get_cons_succ] at hk
      have hne : ev.eid ≠ k := by
        intro he
        apply hnotin
        rw [he, ← hk]
        exact List.mem_map_of_mem _ (List.get_mem l i0 _)
      rw [if_neg hne]
      rw [ih i0 (n + 1) (Nat.lt_of_succ_lt_succ hi) hnod2 hk]
      have harith : n + 1 + i0 + 1 = n + (i0 + 1) + 1 := by omega
      rw [harith]

theorem eventNumberGet_get (sorted : List Event)
    (hnod : (sorted.map Event.eid).Nodup) (i : Nat) (hi : i < sorted.length) :
    eventNumberGet sorted (sorted.get ⟨i, hi⟩).eid = some (i + 1) := by
  unfold eventNumberGet
  rw [enumFrom_filterMap_unique _ sorted i 0 hi hnod rfl]
  simp

theorem eventNumberGet_mem (sorted : List Event)
    (hnod : (sorted.map Event.eid).Nodup) (ev : Event) (hmem : ev ∈ sorted) :
    eventNumberGet sorted ev.eid = some (rankOf sorted ev) ∧ 1 ≤ rankOf sorted ev := by
  obtain ⟨⟨j, hj⟩, hget⟩ := List.mem_iff_get.mp hmem
  have h := eventNumberGet_get sorted hnod j hj
  rw [hget] at h
  constructor
  · rw [h]
    simp [rankOf, h]
  · simp [rankOf, h]

theorem eventsOf_eid (e : LogEntry) (ev : Event) (h : ev ∈ eventsOf e) :
    ev.eid.1 = e.id := by
  unfold eventsOf reqEventOf respEventOf at h
  by_cases hR : e.hasRequest <;> by_cases hS : e.hasResponse <;>
    cases htR : e.requestTimestamp <;> cases htS : e.responseTimestamp <;>
      simp [hR, hS, htR, htS] at h <;>
        first
          | rfl
          | (rcases h with rfl | rfl <;> rfl)

theorem eventsOf_eids_nodup (e : LogEntry) : ((eventsOf e).map Event.eid).Nodup := by
  unfold eventsOf reqEventOf respEventOf
  by_cases hR : e.hasRequest <;> by_cases hS : e.hasResponse <;>
    cases htR : e.requestTimestamp <;> cases htS : e.responseTimestamp <;>
      simp [hR, hS, htR, htS]

theorem mem_allEvents_eid_fst (entries : List LogEntry) (ev : Event)
    (h : ev ∈ allEvents entries) : ev.eid.1 ∈ entries.map LogEntry.id := by
  obtain ⟨e, he, hev⟩ := List.mem_flatMap.mp h
  rw [eventsOf_eid e ev hev]
  exact List.mem_map_of_mem _ he

theorem allEvents_eids_nodup (entries : List LogEntry)
    (h : (entries.map LogEntry.id).Nodup) :
    ((allEvents entries).map Event.eid).Nodup := by
  induction entries with
  | nil => simp [allEvents]
  | cons e l ih =>
    rw [List.map_cons, List.nodup_cons] at h
    obtain ⟨hnotin, hnod2⟩ := h
    rw [show allEvents (e :: l) = eventsOf e ++ allEvents l from rfl]
    rw [List.map_append, List.nodup_append]
    refine ⟨eventsOf_eids_nodup e, ih hnod2, ?_⟩
    intro a ha hb
    obtain ⟨ev, hev, heq⟩ := List.mem_map.mp ha
    obtain ⟨ev2, hev2, heq2⟩ := List.mem_map.mp hb
    apply hnotin
    have h1 : a.1 = e.id := by rw [← heq]; exact eventsOf_eid e ev hev
    have h2 : a.1 ∈ l.map LogEntry.id := by
      rw [← heq2]
      exact mem_allEvents_eid_fst l ev2 hev2
    rw [← h1]
    exact h2

theorem orNull_pos (n : Nat) (h : 1 ≤ n) : orNull (some n) = some n := by
  unfold orNull
  dsimp only
  rw [if_neg (by omega)]

theorem numberEntry_requestNumber (sorted : List Event) (e : LogEntry) :
    (numberEntry sorted e).requestNumber =
      if e.hasRequest ∧ e.requestTimestamp.isSome then
        orNull (eventNumberGet sorted (e.id, Kind.request))
      else e.requestNumber := by
  unfold numberEntry
  by_cases h1 : e.hasRequest ∧ e.requestTimestamp.isSome <;>
    by_cases h2 : e.hasResponse ∧ e.responseTimestamp.isSome <;>
      simp [h1, h2]

theorem numberEntry_responseNumber (sorted : List Event) (e : LogEntry) :
    (numberEntry sorted e).responseNumber =
      if e.hasResponse ∧ e.responseTimestamp.isSome then
        orNull (eventNumberGet sorted (e.id, Kind.response))
      else e.responseNumber := by
  unfold numberEntry
  by_cases h1 : e.hasRequest ∧ e.requestTimestamp.isSome <;>
    by_cases h2 : e.hasResponse ∧ e.responseTimestamp.isSome <;>
      simp [h1, h2]

theorem reqEventOf_eq_nil (e : LogEntry)
    (h : ¬(e.hasRequest ∧ e.requestTimestamp.isSome)) : reqEventOf e = [] := by
  unfold reqEventOf
  by_cases hR : e.hasRequest
  · cases ht : e.requestTimestamp with
    | none => simp [hR, ht]
    | some t => exact absurd ⟨hR, by simp [ht]⟩ h
  · simp [hR]

theorem respEventOf_eq_nil (e : LogEntry)
    (h : ¬(e.hasResponse ∧ e.responseTimestamp.isSome)) : respEventOf e = [] := by
  unfold respEventOf
  by_cases hS : e.hasResponse
  · cases ht : e.responseTimestamp with
    | none => simp [hS, ht]
    | some t => exact absurd ⟨hS, by simp [ht]⟩ h
  · simp [hS]

theorem reqEventOf_eq_singleton (e : LogEntry) (t : Int) (hR : e.hasRequest = true)
    (ht : e.requestTimestamp = some t) :
    reqEventOf e = [⟨(e.id, Kind.request), e.id, Kind.request, t⟩] := by
  unfold reqEventOf
  simp [hR, ht]

theorem respEventOf_eq_singleton (e : LogEntry) (t : Int) (hS : e.hasResponse = true)
    (ht : e.responseTimestamp = some t) :
    respEventOf e = [⟨(e.id, Kind.response), e.id, Kind.response, t⟩] := by
  unfold respEventOf
  simp [hS, ht]

theorem filterMap_id_pair (a b : Option Nat) :
    [a, b].filterMap id = a.toList ++ b.toList := by
  cases a <;> cases b <;> rfl

theorem numberEntry_numbers (entries : List LogEntry) (sorted : List Event)
    (hperm : sorted.Perm (allEvents entries))
    (hnod : (sorted.map Event.eid).Nodup)
    (e0 : LogEntry) (he0 : e0 ∈ entries)
    (hreq : e0.requestNumber = none) (hresp : e0.responseNumber = none) :
    [(numberEntry sorted e0).requestNumber,
      (numberEntry sorted e0).responseNumber].filterMap id =
      (eventsOf e0).map (rankOf sorted) := by
  rw [filterMap_id_pair, numberEntry_requestNumber, numberEntry_responseNumber]
  rw [show eventsOf e0 = reqEventOf e0 ++ respEventOf e0 from rfl, List.map_append]
  have hreqPart : (if e0.hasRequest ∧ e0.requestTimestamp.isSome then
        orNull (eventNumberGet sorted (e0.id, Kind.request))
      else e0.requestNumber).toList = (reqEventOf e0).map (rankOf sorted) := by
    by_cases hc : e0.hasRequest ∧ e0.requestTimestamp.isSome
    · obtain ⟨t, ht⟩ := Option.isSome_iff_exists.mp hc.2
      rw [if_pos hc, reqEventOf_eq_singleton e0 t hc.1 ht]
      have hmemA : (⟨(e0.id, Kind.request), e0.id, Kind.request, t⟩ : Event) ∈
          allEvents entries := by
        refine List.mem_flatMap.mpr ⟨e0, he0, ?_⟩
        rw [show eventsOf e0 = reqEventOf e0 ++ respEventOf e0 from rfl,
          reqEventOf_eq_singleton e0 t hc.1 ht]
        simp
      obtain ⟨hg, h1⟩ := eventNumberGet_mem sorted hnod _ (hperm.mem_iff.mpr hmemA)
      dsimp only at hg
      rw [hg, orNull_pos _ h1]
      rfl
    · rw [if_neg hc, reqEventOf_eq_nil e0 hc, hreq]
      rfl
  have hrespPart : (if e0.hasResponse ∧ e0.responseTimestamp.isSome then
        orNull (eventNumberGet sorted (e0.id, Kind.response))
      else e0.responseNumber).toList = (respEventOf e0).map (rankOf sorted) := by
    by_cases hc : e0.hasResponse ∧ e0.responseTimestamp.isSome
    · obtain ⟨t, ht⟩ := Option.isSome_iff_exists.mp hc.2
      rw [if_pos hc, respEventOf_eq_singleton e0 t hc.1 ht]
      have hmemA : (⟨(e0.id, Kind.response), e0.id, Kind.response, t⟩ : Event) ∈
          allEvents entries := by
        refine List.mem_flatMap.mpr ⟨e0, he0, ?_⟩
        rw [show eventsOf e0 = reqEventOf e0 ++ respEventOf e0 from rfl,
          respEventOf_eq_singleton e0 t hc.1 ht]
        simp
      obtain ⟨hg, h1⟩ := eventNumberGet_mem sorted hnod _ (hperm.mem_iff.mpr hmemA)
      dsimp only at hg
      rw [hg, orNull_pos _ h1]
      rfl
    · rw [if_neg hc, respEventOf_eq_nil e0 hc, hresp]
      rfl
  rw [hreqPart, hrespPart]

theorem flatMap_congr_mem {α β : Type} (l : List α) (f g : α → List β)
    (h : ∀ a ∈ l, f a = g a) : l.flatMap f = l.flatMap g := by
  induction l with
  | nil => rfl
  | cons a l ih =>
    rw [List.flatMap_cons, List.flatMap_cons, h a (by simp),
      ih (fun x hx => h x (by simp [hx]))]

theorem sorted_map_rank (sorted : List Event)
    (hnod : (sorted.map Event.eid).Nodup) :
    sorted.map (rankOf sorted) = List.range' 1 sorted.length := by
  apply List.ext_get
  · simp [List.length_range']
  · intro n h1 h2
    rw [List.get_map]
    have h := eventNumberGet_get sorted hnod n (by simpa using h1)
    rw [List.get_eq_getElem] at h
    rw [List.get_range']
    simp only [List.get_eq_getElem]
    unfold rankOf
    rw [h]
    simp
    omega

/-- Claim C3: for a collection of freshly parsed entries with distinct
ids producing E events in total, the numbers the sequencer assigns
(the non-null requestNumber and responseNumber values) are exactly
1..E, with no gaps and no duplicates. -/
theorem c3_dense_ranks (entries : List LogEntry)
    (hid : (entries.map LogEntry.id).Nodup)
    (hraw : ∀ e ∈ entries, e.requestNumber = none ∧ e.responseNumber = none) :
    (allNumbers (getNumberedEntries entries)).Perm
      (List.range' 1 (allEvents entries).length) := by
  by_cases hemp : entries.isEmpty
  · have he : entries = [] := List.isEmpty_iff.mp hemp
    subst he
    simp [getNumberedEntries, allNumbers, allEvents]
  · have hperm : (sortEvents (allEvents entries)).Perm (allEvents entries) :=
      stableSort_perm _ _
    have hnod : ((sortEvents (allEvents entries)).map Event.eid).Nodup :=
      (hperm.map Event.eid).nodup_iff.mpr (allEvents_eids_nodup entries hid)
    have hstep : allNumbers (getNumberedEntries entries) =
        (allEvents entries).map (rankOf (sortEvents (allEvents entries))) := by
      unfold getNumberedEntries
      rw [if_neg hemp]
      unfold allNumbers
      rw [List.flatMap_map]
      unfold allEvents
      rw [List.map_flatMap]
      exact flatMap_congr_mem entries _ _
        (fun e0 he0 => numberEntry_numbers entries _ hperm hnod e0 he0
          (hraw e0 he0).1 (hraw e0 he0).2)
    rw [hstep]
    have hlen : (sortEvents (allEvents entries)).length = (allEvents entries).length :=
      hperm.length_eq
    rw [← hlen, ← sorted_map_rank _ hnod]
    exact (hperm.map _).symm

/-- Witness for C3 on scenario A: two events, numbers 1 and 2. -/
theorem c3_dense_ranks_witness :
    (allNumbers (getNumberedEntries scenarioEntries)).Perm
      (List.range' 1 (allEvents scenarioEntries).length) :=
  c3_dense_ranks scenarioEntries (by decide) (by decide)
